import Mathlib

/-!
Shallow embedding of the `localizable_json_parser` crate (`src/lib.rs`):
conversion of Apple String Catalog data into Android string-resource XML.

The Rust modules `types::inoutoutput`, `types::input` and `types::output` are
mirrored by the namespaces `Inout`, `Input` and `Output`.  Rust `HashMap`
fields are embedded as association lists in iteration order (the order is an
explicit parameter, since `HashMap` iteration order is unspecified), and
`BTreeMap` values are embedded as association lists kept sorted in strictly
ascending key order, exactly the shape a `BTreeMap` iterates in.  Rust
`String` ordering (byte order, which on UTF-8 agrees with code-point
lexicographic order) is embedded as `lexLt` on the underlying character
lists.  Serde deserialization and file reading are outside the embedding:
`from_string` takes the already-deserialized `Input.Translation` value, as
the Rust `parse::from_string` does right after its first line.
-/

set_option linter.unusedVariables false

/-- Constant `TRANSLATED_STATE` from the crate root. -/
def TRANSLATED_STATE : String := "translated"

/-- Constant `NEW_STATE` from the crate root. -/
def NEW_STATE : String := "new"

namespace Inout

/-- Rust `types::inoutoutput::TranslationValue`: a translation string together
with its state (`new` or `translated`). -/
structure TranslationValue where
  state : String
  value : String
deriving DecidableEq, Repr, Inhabited

/-- Rust `types::inoutoutput::StringUnitContainer`. -/
structure StringUnitContainer where
  string_unit : TranslationValue
deriving DecidableEq, Repr, Inhabited

/-- Rust `types::inoutoutput::Plural`: six optional CLDR slots, field order as
declared in the source. -/
structure Plural where
  zero : Option StringUnitContainer
  one : Option StringUnitContainer
  two : Option StringUnitContainer
  other : Option StringUnitContainer
  many : Option StringUnitContainer
  few : Option StringUnitContainer
deriving DecidableEq, Repr, Inhabited

/-- Rust `types::inoutoutput::Variation`. -/
structure Variation where
  plural : Plural
deriving DecidableEq, Repr, Inhabited

end Inout

namespace Input

/-- Rust `types::input::VariationContainer`. -/
structure VariationContainer where
  variations : Inout.Variation
deriving DecidableEq, Repr, Inhabited

/-- Rust `types::input::TranslationTypeContainer`: the untagged serde union of
a string unit and a plural variation. -/
inductive TranslationTypeContainer where
  | StringUnit (c : Inout.StringUnitContainer)
  | Variation (c : VariationContainer)
deriving DecidableEq, Repr

/-- Rust `types::input::Language`: comment plus the per-language-code map of
translation units.  The `HashMap` is embedded as an association list in
iteration order. -/
structure Language where
  comment : String
  localizations : List (String × TranslationTypeContainer)
deriving DecidableEq, Repr

/-- Rust `types::input::Translation`: the deserialized raw catalog.  The
`strings` `HashMap` is embedded as an association list in iteration order. -/
structure Translation where
  source_language : String
  strings : List (String × Language)
  version : String
deriving DecidableEq, Repr

end Input

/-- Rust byte-wise `Ord` on `String`, embedded as strict lexicographic order
on the character lists (UTF-8 byte order agrees with code-point order). -/
def lexLt : List Char → List Char → Bool
  | [], [] => false
  | [], _ :: _ => true
  | _ :: _, [] => false
  | a :: as, b :: bs => if a < b then true else if b < a then false else lexLt as bs

/-- Strict string order used by `BTreeMap` and `sort_by`, as a proposition. -/
abbrev strLt (a b : String) : Prop := lexLt a.data b.data = true

/-- Non-strict string order (the comparator of `sort_by` answering
`Less | Equal`), as a proposition. -/
abbrev strLe (a b : String) : Prop := lexLt b.data a.data = false

/-- Model of `std::collections::BTreeMap::insert` on the sorted-association-
list embedding: place the new pair at its ordered position, replacing the old
value when the key is already present. -/
def btreeInsert {α : Type} (k : String) (v : α) : List (String × α) → List (String × α)
  | [] => [(k, v)]
  | (k', v') :: rest =>
    if lexLt k.data k'.data then (k, v) :: (k', v') :: rest
    else if k = k' then (k, v) :: rest
    else (k', v') :: btreeInsert k v rest

/-- Model of `BTreeMap::entry(k).or_default()` followed by an in-place update
of the entry: apply `f` to the present value, or to `dflt` when the key is
absent, keeping the list sorted. -/
def btreeUpdate {α : Type} (k : String) (f : α → α) (dflt : α) :
    List (String × α) → List (String × α)
  | [] => [(k, f dflt)]
  | (k', v') :: rest =>
    if lexLt k.data k'.data then (k, f dflt) :: (k', v') :: rest
    else if k = k' then (k', f v') :: rest
    else (k', v') :: btreeUpdate k f dflt rest

namespace Output

/-- Rust `types::output::ParsedError`. -/
inductive ParsedError where
  | ParseToJson (s : String)
  | InvalidUtf8 (s : String)
  | Io (s : String)
  | InvalidTranslationKey (s : String)
deriving DecidableEq, Repr

/-- Rust `types::output::PluralVariate`: the six CLDR plural categories. -/
inductive PluralVariate where
  | Zero
  | One
  | Two
  | Few
  | Many
  | Other
deriving DecidableEq, Repr

/-- Rust `PluralVariate::android_key`.  Note the source returns the
capitalized literal for the `Zero` case. -/
def PluralVariate.android_key : PluralVariate → String
  | .Zero => "Zero"
  | .One => "one"
  | .Two => "two"
  | .Few => "few"
  | .Many => "many"
  | .Other => "other"

/-- Rust `types::output::SinglePluralVariation`. -/
structure SinglePluralVariation where
  variate : PluralVariate
  translation_value : Inout.TranslationValue
deriving DecidableEq, Repr

/-- Rust `types::output::Translation`: a plain localization or an ordered
sequence of plural variations. -/
inductive Translation where
  | Localization (tv : Inout.TranslationValue)
  | PluralVariation (pv : List SinglePluralVariation)
deriving DecidableEq, Repr

instance : Inhabited Translation := ⟨.Localization default⟩

/-- Rust `Translation::expect_localization`.  The source `panic!`s on the
`PluralVariation` variant; the panic (process abort) is embedded as `none`. -/
def Translation.expect_localization : Translation → Option Inout.TranslationValue
  | .Localization tv => some tv
  | _ => none

/-- Rust `Translation::expect_plural_variation`.  The source `panic!`s on the
`Localization` variant; the panic (process abort) is embedded as `none`. -/
def Translation.expect_plural_variation : Translation → Option (List SinglePluralVariation)
  | .PluralVariation pv => some pv
  | _ => none

/-- Rust `types::output::LocalizationValue`: the per-language-code `BTreeMap`
of translations, embedded as a sorted association list. -/
structure LocalizationValue where
  language_translation : List (String × Translation)
deriving DecidableEq, Repr

instance : Inhabited LocalizationValue := ⟨⟨[]⟩⟩

/-- Rust `types::output::SingleTranslation`. -/
structure SingleTranslation where
  key_raw : String
  key_alphanumeric : String
  localization_value : LocalizationValue
  comment : String
deriving DecidableEq, Repr

/-- Rust `types::output::Localizable`. -/
structure Localizable where
  source_language : String
  single_translation : List SingleTranslation
deriving DecidableEq, Repr

/-- Rust `types::output::Parsed`: the canonical model plus the retained raw
catalog. -/
structure Parsed where
  localizable : Localizable
  translation : Input.Translation
deriving DecidableEq, Repr

/-- Rust `types::output::SingleLocalizedPerLanguage`. -/
structure SingleLocalizedPerLanguage where
  key_raw : String
  key_alphanumeric : String
  translation : Translation
  comment : String
deriving DecidableEq, Repr

/-- Rust `types::output::LocalizedPerLanguageInfo` (with `Default` giving a
zero count and an empty list). -/
structure LocalizedPerLanguageInfo where
  word_count : Nat
  translations : List SingleLocalizedPerLanguage
deriving DecidableEq, Repr

instance : Inhabited LocalizedPerLanguageInfo := ⟨⟨0, []⟩⟩

/-- Rust `types::output::LocalizedPerLanguage`.  The `language_localized`
`BTreeMap` is embedded as a sorted association list. -/
structure LocalizedPerLanguage where
  source_language : String
  language_localized : List (String × LocalizedPerLanguageInfo)
deriving DecidableEq, Repr

/-- Rust `types::output::AndroidWriteConfig`.  The target directory is kept
abstract as a string; no file system is modelled. -/
structure AndroidWriteConfig where
  write_in : String
  only_write_language_code : Option String
deriving DecidableEq, Repr

/-- Rust `types::output::AndroidLocalizeConfig`. -/
structure AndroidLocalizeConfig where
  app_name : String
  write_config : Option AndroidWriteConfig
deriving DecidableEq, Repr

instance : Inhabited AndroidLocalizeConfig := ⟨⟨"", none⟩⟩

/-- Rust `types::output::WrittenXml`. -/
structure WrittenXml where
  language_code : String
  sub_dir : String
deriving DecidableEq, Repr

/-- Rust `types::output::LocalizedForAndroid`. -/
structure LocalizedForAndroid where
  sorted_languages : List (String × String)
  written_xmls : List WrittenXml
deriving DecidableEq, Repr

end Output

/-- Unicode `White_Space` code points, the predicate behind Rust
`char::is_whitespace` (used by `str::trim`). -/
def rustIsWhitespace (c : Char) : Bool :=
  c.toNat ∈ [0x9, 0xA, 0xB, 0xC, 0xD, 0x20, 0x85, 0xA0, 0x1680,
    0x2000, 0x2001, 0x2002, 0x2003, 0x2004, 0x2005, 0x2006, 0x2007,
    0x2008, 0x2009, 0x200A, 0x2028, 0x2029, 0x202F, 0x205F, 0x3000]

/-- Rust `str::trim`: drop Unicode whitespace from both ends. -/
def rustTrim (l : List Char) : List Char :=
  ((l.dropWhile rustIsWhitespace).reverse.dropWhile rustIsWhitespace).reverse

/-- Character class of the regex `[a-zA-Z0-9]` (the complement of the class
replaced by `parse::from_string`). -/
def isAlnumAscii (c : Char) : Bool :=
  (0x61 ≤ c.toNat && c.toNat ≤ 0x7A) ||
  (0x41 ≤ c.toNat && c.toNat ≤ 0x5A) ||
  (0x30 ≤ c.toNat && c.toNat ≤ 0x39)

/-- Streaming form of `Regex::new("[^a-zA-Z0-9]+").replace_all(s, "_")`: the
flag records whether the scan is inside a run of non-alphanumeric characters,
so each maximal such run emits a single underscore. -/
def replaceRunsGo : Bool → List Char → List Char
  | _, [] => []
  | inRun, c :: rest =>
    if isAlnumAscii c then c :: replaceRunsGo false rest
    else if inRun then replaceRunsGo true rest
    else '_' :: replaceRunsGo true rest

/-- Semantics of `Regex::new("[^a-zA-Z0-9]+").replace_all(s, "_")`: every
maximal run of characters outside `[a-zA-Z0-9]` becomes one underscore. -/
def replaceRuns (l : List Char) : List Char := replaceRunsGo false l

/-- Rust `str::trim_matches(underscore)`: drop underscores from both ends. -/
def trimUnderscores (l : List Char) : List Char :=
  ((l.dropWhile (fun c => c = '_')).reverse.dropWhile (fun c => c = '_')).reverse

/-- The `sanitized_android_key` computation in `parse::from_string`: replace
runs of non-alphanumerics in the trimmed key by underscores, trim the
underscores, and lowercase.  Rust `str::to_lowercase` agrees with per-
character ASCII lowercasing here because the regex step only leaves
characters in the class of `[A-Za-z0-9]` and underscore. -/
def sanitized_android_key (key : String) : String :=
  String.mk (((trimUnderscores (replaceRuns (rustTrim key.data)))).map Char.toLower)

namespace Output

/-- Body of the `extract!` macro in `parse::from_string`: a populated slot
contributes one `SinglePluralVariation`, an empty slot contributes nothing. -/
def extract (field : Option Inout.StringUnitContainer) (variate : PluralVariate) :
    List SinglePluralVariation :=
  match field with
  | some o => [⟨variate, o.string_unit⟩]
  | none => []

/-- The six `extract!` invocations of `parse::from_string`, in source order:
zero, one, two, few, many, other. -/
def extractPlural (v : Inout.Variation) : List SinglePluralVariation :=
  extract v.plural.zero .Zero ++ extract v.plural.one .One ++
  extract v.plural.two .Two ++ extract v.plural.few .Few ++
  extract v.plural.many .Many ++ extract v.plural.other .Other

/-- The `match translation_type_container` expression in
`parse::from_string`. -/
def translationOfContainer : Input.TranslationTypeContainer → Translation
  | .StringUnit su => .Localization su.string_unit
  | .Variation container => .PluralVariation (extractPlural container.variations)

/-- The inner loop of `parse::from_string`: inserting every language's
converted translation into the `language_translation` map. -/
def buildLocalizationValue (locs : List (String × Input.TranslationTypeContainer)) :
    List (String × Translation) :=
  locs.foldl (fun acc p => btreeInsert p.1 (translationOfContainer p.2) acc) []

/-- Source-language fallback in `parse::from_string`: when the map lacks the
source language, insert a synthesized localization whose value is the raw key
and whose state is `translated`. -/
def withSourceFallback (source_language key : String)
    (m : List (String × Translation)) : List (String × Translation) :=
  if (m.lookup source_language).isNone then
    btreeInsert source_language
      (.Localization ⟨TRANSLATED_STATE, key⟩) m
  else m

/-- Construction of one `SingleTranslation` from one `strings` entry, the body
of the loop of `parse::from_string` after the key-validity check. -/
def single_translation_of (source_language : String)
    (p : String × Input.Language) : SingleTranslation :=
  { key_raw := p.1
    key_alphanumeric := sanitized_android_key p.1
    localization_value :=
      ⟨withSourceFallback source_language p.1 (buildLocalizationValue p.2.localizations)⟩
    comment := p.2.comment }

/-- The loop of `parse::from_string` over the `strings` map: reject the first
key with surrounding whitespace, otherwise emit one `SingleTranslation` per
entry. -/
def processEntries (source_language : String) :
    List (String × Input.Language) → Except ParsedError (List SingleTranslation)
  | [] => .ok []
  | p :: rest =>
    if rustTrim p.1.data ≠ p.1.data then
      .error (.InvalidTranslationKey p.1)
    else
      match processEntries source_language rest with
      | .error e => .error e
      | .ok rest' => .ok (single_translation_of source_language p :: rest')

/-- Order on canonical entries used by the final `sort_by` of
`parse::from_string`. -/
abbrev keyRawLe (a b : SingleTranslation) : Prop := strLe a.key_raw b.key_raw

/-- Rust `parse::from_string`, starting after serde deserialization: validate
keys, build the canonical entries, and stably sort them ascending by
`key_raw`.  The stable `Vec::sort_by` is embedded as insertion sort, which is
also stable. -/
def from_string (translation : Input.Translation) : Except ParsedError Parsed :=
  match processEntries translation.source_language translation.strings with
  | .error e => .error e
  | .ok entries =>
    .ok { localizable :=
            { source_language := translation.source_language
              single_translation := List.insertionSort keyRawLe entries }
          translation := translation }

end Output

/-- Modelled from the spec: the external `words_count` crate (a dependency,
its source is not part of this repository) as used by
`localized_per_language`; the spec describes the count as the whitespace-
token count of the text, i.e. the number of maximal runs of non-whitespace
characters. -/
def wordsCountGo : Bool → List Char → Nat
  | _, [] => 0
  | inTok, c :: rest =>
    if rustIsWhitespace c then wordsCountGo false rest
    else if inTok then wordsCountGo true rest
    else wordsCountGo true rest + 1

/-- Modelled from the spec: `words_count::count(s).words`, the whitespace-
token count of `s`. -/
def wordsCountWords (s : String) : Nat := wordsCountGo false s.data

namespace Output

/-- The `match translation` expression computing `length` in
`localized_per_language`: token count of a localization value, or the sum of
the token counts over the populated plural variants. -/
def translationWordCount : Translation → Nat
  | .Localization l => wordsCountWords l.value
  | .PluralVariation pv =>
    (pv.map (fun single => wordsCountWords single.translation_value.value)).sum

/-- One record pushed into a language bucket by `localized_per_language`. -/
def recordOf (st : SingleTranslation) (t : Translation) : SingleLocalizedPerLanguage :=
  { key_raw := st.key_raw
    key_alphanumeric := st.key_alphanumeric
    translation := t
    comment := st.comment }

/-- The body of the inner loop of `localized_per_language`: fetch (or default-
create) the bucket of the language, push the record and add the word count. -/
def bucketStep (st : SingleTranslation) (acc : List (String × LocalizedPerLanguageInfo))
    (p : String × Translation) : List (String × LocalizedPerLanguageInfo) :=
  btreeUpdate p.1
    (fun info =>
      { word_count := info.word_count + translationWordCount p.2
        translations := info.translations ++ [recordOf st p.2] })
    default acc

/-- Rust `Localizable::localized_per_language`: regroup the (sorted) entries
by language code, accumulating per-language word counts. -/
def Localizable.localized_per_language (l : Localizable) : LocalizedPerLanguage :=
  { source_language := l.source_language
    language_localized :=
      l.single_translation.foldl
        (fun acc st => st.localization_value.language_translation.foldl (bucketStep st) acc)
        [] }

/-- Rust `TranslationValue::sanitize_for_android`, first substitution: the
semantics of `str::replace` with the one-character quote pattern and the
replacement backslash-quote (leftmost, non-overlapping). -/
def replaceQuote : List Char → List Char
  | [] => []
  | c :: rest =>
    if c = '\'' then '\\' :: '\'' :: replaceQuote rest
    else c :: replaceQuote rest

/-- Rust `TranslationValue::sanitize_for_android`, second substitution: the
semantics of `str::replace` with the four-character pattern dollar-l-l-d and
the replacement dollar-d (leftmost, non-overlapping). -/
def replaceLld : List Char → List Char
  | '$' :: 'l' :: 'l' :: 'd' :: rest => '$' :: 'd' :: replaceLld rest
  | c :: rest => c :: replaceLld rest
  | [] => []

/-- Rust `TranslationValue::sanitize_for_android`: replace every quote by a
backslash-escaped quote, then every dollar-l-l-d by dollar-d. -/
def TranslationValue.sanitize_for_android (tv : Inout.TranslationValue) : String :=
  String.mk (replaceLld (replaceQuote tv.value.data))

/-- Rendering of one entry inside `localized_for_android`: the `match` on the
translation variant producing either a string element or a plurals block. -/
def renderSingle (t : SingleLocalizedPerLanguage) : String :=
  match t.translation with
  | .Localization localization =>
    "<string name=\"" ++ t.key_alphanumeric ++ "\">" ++
      TranslationValue.sanitize_for_android localization ++ "</string>"
  | .PluralVariation plural =>
    String.intercalate "\n"
      (["<plurals name=\"" ++ t.key_alphanumeric ++ "\">"] ++
        plural.map (fun single_plural =>
          "<item quantity=\"" ++ single_plural.variate.android_key ++ "\">" ++
            TranslationValue.sanitize_for_android single_plural.translation_value ++
            "</item>") ++
        ["</plurals>"])

/-- Rendering of one language bucket inside `localized_for_android`: render
every entry in bucket order, optionally prepend the app-name string, and wrap
the children in a resources element. -/
def renderLanguage (app_name : String) (translations : List SingleLocalizedPerLanguage) :
    String :=
  let xml := translations.map renderSingle
  let xml :=
    if app_name = "" then xml
    else ("<string name=\"app_name\">" ++ app_name ++ "</string>") :: xml
  "<resources>\n" ++ String.intercalate "\n" xml ++ "\n</resources>"

/-- Sub-directory name chosen by the writing loop of `localized_for_android`:
`values` for the source language, `values-` plus the code otherwise. -/
def subDirName (source_language language : String) : String :=
  if language = source_language then "values" else "values-" ++ language

/-- Rust `LocalizedPerLanguage::localized_for_android`.  The XML map is built
by inserting each rendered language (iterating the already-sorted buckets)
into a fresh `BTreeMap`; the writing loop only touches the file system, so
only its recorded `WrittenXml` entries (its behaviour when every write
succeeds, the sole case in which the Rust function returns `Ok`) are
modelled. -/
def LocalizedPerLanguage.localized_for_android (lpl : LocalizedPerLanguage)
    (config : AndroidLocalizeConfig) : Except ParsedError LocalizedForAndroid :=
  let sorted_languages :=
    lpl.language_localized.foldl
      (fun acc p => btreeInsert p.1 (renderLanguage config.app_name p.2.translations) acc)
      []
  let written_xmls :=
    match config.write_config with
    | none => []
    | some write_config =>
      (sorted_languages.filter
        (fun p =>
          match write_config.only_write_language_code with
          | some lan => lan = p.1
          | none => true)).map
        (fun p => { language_code := p.1, sub_dir := subDirName lpl.source_language p.1 })
  .ok { sorted_languages := sorted_languages, written_xmls := written_xmls }

end Output

/-- Keys of an association list are strictly ascending: the representation
invariant of the `BTreeMap` embedding. -/
def SortedKeys {α : Type} (m : List (String × α)) : Prop :=
  m.Pairwise (fun p q => lexLt p.1.data q.1.data = true)

/-- Character class `[a-z0-9_]` of the spec property on `key_alphanumeric`. -/
def isLowerAlnumU (c : Char) : Bool :=
  (0x61 ≤ c.toNat && c.toNat ≤ 0x7A) || (0x30 ≤ c.toNat && c.toNat ≤ 0x39) ||
    c.toNat = 0x5F

/-- Shape of the strings produced by `sanitized_android_key`: only lowercase
alphanumerics and underscores, no underscore at either end, and no two
adjacent underscores. -/
def CanonicalKey (l : List Char) : Prop :=
  (∀ c ∈ l, isLowerAlnumU c = true) ∧ l.head? ≠ some '_' ∧ l.getLast? ≠ some '_' ∧
    l.Chain' (fun a b => ¬(a = '_' ∧ b = '_'))

/-- Two raw catalog entries carry the same data: equal key, equal comment, and
localization maps holding the same pairs in possibly different iteration
order. -/
def LanguageEquiv (a b : String × Input.Language) : Prop :=
  a.1 = b.1 ∧ a.2.comment = b.2.comment ∧ a.2.localizations.Perm b.2.localizations

/-- Two raw `strings` maps carry the same data: up to reordering of the outer
map, entries are pairwise `LanguageEquiv`. -/
def StringsEquiv (l1 l2 : List (String × Input.Language)) : Prop :=
  ∃ mid, List.Forall₂ LanguageEquiv l1 mid ∧ mid.Perm l2

/-! ## Order lemmas for the embedded string comparison -/

theorem lexLt_irrefl (l : List Char) : lexLt l l = false := by
  induction l with
  | nil => rfl
  | cons c cs ih => simp [lexLt, lt_irrefl, ih]

theorem lexLt_asymm : ∀ as bs : List Char, lexLt as bs = true → lexLt bs as = false := by
  intro as
  induction as with
  | nil =>
    intro bs h
    cases bs with
    | nil => simp [lexLt] at h
    | cons b bs => simp [lexLt]
  | cons a as ih =>
    intro bs h
    cases bs with
    | nil => simp [lexLt] at h
    | cons b bs =>
      simp only [lexLt] at h ⊢
      by_cases hab : a < b
      · have hba : ¬ b < a := asymm hab
        simp [hab, hba]
      · by_cases hba : b < a
        · simp [hab, hba] at h
        · simp only [hab, hba, if_false] at h
          simp [hab, hba, ih bs h]

theorem lexLt_trans :
    ∀ as bs cs : List Char, lexLt as bs = true → lexLt bs cs = true → lexLt as cs = true := by
  intro as
  induction as with
  | nil =>
    intro bs cs h1 h2
    cases bs with
    | nil => simp [lexLt] at h1
    | cons b bs =>
      cases cs with
      | nil => simp [lexLt] at h2
      | cons c cs => simp [lexLt]
  | cons a as ih =>
    intro bs cs h1 h2
    cases bs with
    | nil => simp [lexLt] at h1
    | cons b bs =>
      cases cs with
      | nil => simp [lexLt] at h2
      | cons c cs =>
        simp only [lexLt] at h1 h2 ⊢
        by_cases hab : a < b
        · by_cases hbc : b < c
          · simp [lt_trans hab hbc]
          · by_cases hcb : c < b
            · simp [hbc, hcb] at h2
            · have : b = c := le_antisymm (not_lt.mp hcb) (not_lt.mp hbc)
              subst this
              simp [hab]
        · by_cases hba : b < a
          · simp [hab, hba] at h1
          · have : a = b := le_antisymm (not_lt.mp hba) (not_lt.mp hab)
            subst this
            simp only [lt_irrefl, if_false] at h1
            by_cases hbc : a < c
            · simp [hbc]
            · by_cases hcb : c < a
              · simp [hbc, hcb] at h2
              · simp only [hbc, hcb, if_false] at h2 ⊢
                exact ih bs cs h1 h2

theorem lexLt_eq_of_not_lt :
    ∀ as bs : List Char, lexLt as bs = false → lexLt bs as = false → as = bs := by
  intro as
  induction as with
  | nil =>
    intro bs h1 h2
    cases bs with
    | nil => rfl
    | cons b bs => simp [lexLt] at h1
  | cons a as ih =>
    intro bs h1 h2
    cases bs with
    | nil => simp [lexLt] at h2
    | cons b bs =>
      simp only [lexLt] at h1 h2
      by_cases hab : a < b
      · simp [hab] at h1
      · by_cases hba : b < a
        · simp [hab, hba] at h2
        · have hchar : a = b := le_antisymm (not_lt.mp hba) (not_lt.mp hab)
          subst hchar
          simp only [lt_irrefl, if_false] at h1 h2
          rw [ih bs h1 h2]

theorem strNe_of_lexLt {a b : String} (h : lexLt a.data b.data = true) : a ≠ b := by
  intro heq
  subst heq
  rw [lexLt_irrefl] at h
  exact Bool.false_ne_true h

theorem lexLt_total (as bs : List Char) :
    lexLt as bs = true ∨ lexLt bs as = true ∨ as = bs := by
  by_cases h1 : lexLt as bs = true
  · exact Or.inl h1
  · by_cases h2 : lexLt bs as = true
    · exact Or.inr (Or.inl h2)
    · exact Or.inr (Or.inr
        (lexLt_eq_of_not_lt as bs (Bool.not_eq_true _ ▸ h1) (Bool.not_eq_true _ ▸ h2)))

/-! ## Lookup and sortedness lemmas for the `BTreeMap` embedding -/

theorem lookup_cons_self {α : Type} (k : String) (v : α) (rest : List (String × α)) :
    ((k, v) :: rest).lookup k = some v := by
  simp [List.lookup]

theorem lookup_cons_ne {α : Type} {k k2 : String} (v2 : α) (rest : List (String × α))
    (h : k ≠ k2) : ((k2, v2) :: rest).lookup k = rest.lookup k := by
  have hb : (k == k2) = false := beq_eq_false_iff_ne.mpr h
  simp [List.lookup, hb]

theorem lookup_btreeInsert_self {α : Type} (k : String) (v : α) (m : List (String × α)) :
    (btreeInsert k v m).lookup k = some v := by
  induction m with
  | nil => simp [btreeInsert, List.lookup]
  | cons p rest ih =>
    obtain ⟨k2, v2⟩ := p
    simp only [btreeInsert]
    by_cases h1 : lexLt k.data k2.data = true
    · rw [if_pos h1, lookup_cons_self]
    · by_cases h2 : k = k2
      · subst h2
        rw [if_neg h1, if_pos rfl, lookup_cons_self]
      · rw [if_neg h1, if_neg h2, lookup_cons_ne _ _ h2, ih]

theorem lookup_btreeInsert_ne {α : Type} (k k' : String) (v : α) (m : List (String × α))
    (h : k' ≠ k) : (btreeInsert k v m).lookup k' = m.lookup k' := by
  induction m with
  | nil =>
    simp only [btreeInsert]
    exact lookup_cons_ne _ _ h
  | cons p rest ih =>
    obtain ⟨k2, v2⟩ := p
    simp only [btreeInsert]
    by_cases h1 : lexLt k.data k2.data = true
    · rw [if_pos h1, lookup_cons_ne _ _ h]
    · by_cases h2 : k = k2
      · subst h2
        rw [if_neg h1, if_pos rfl, lookup_cons_ne _ _ h, lookup_cons_ne _ _ h]
      · by_cases h3 : k' = k2
        · subst h3
          rw [if_neg h1, if_neg h2, lookup_cons_self, lookup_cons_self]
        · rw [if_neg h1, if_neg h2, lookup_cons_ne _ _ h3, lookup_cons_ne _ _ h3, ih]

theorem mem_btreeInsert {α : Type} {p : String × α} {k : String} {v : α} :
    ∀ {m : List (String × α)}, p ∈ btreeInsert k v m → p.1 = k ∨ p ∈ m := by
  intro m
  induction m with
  | nil =>
    intro hp
    simp only [btreeInsert, List.mem_singleton] at hp
    subst hp
    exact Or.inl rfl
  | cons q rest ih =>
    intro hp
    obtain ⟨k2, v2⟩ := q
    simp only [btreeInsert] at hp
    by_cases h1 : lexLt k.data k2.data = true
    · rw [if_pos h1] at hp
      rcases List.mem_cons.mp hp with hp | hp
      · subst hp
        exact Or.inl rfl
      · exact Or.inr hp
    · by_cases h2 : k = k2
      · rw [if_neg h1, if_pos h2] at hp
        rcases List.mem_cons.mp hp with hp | hp
        · subst hp
          exact Or.inl rfl
        · exact Or.inr (List.mem_cons_of_mem _ hp)
      · rw [if_neg h1, if_neg h2] at hp
        rcases List.mem_cons.mp hp with hp | hp
        · exact Or.inr (by simp [hp])
        · rcases ih hp with h | h
          · exact Or.inl h
          · exact Or.inr (List.mem_cons_of_mem _ h)

theorem sortedKeys_btreeInsert {α : Type} {k : String} {v : α} {m : List (String × α)}
    (hs : SortedKeys m) : SortedKeys (btreeInsert k v m) := by
  induction m with
  | nil => simp [btreeInsert, SortedKeys]
  | cons q rest ih =>
    obtain ⟨k2, v2⟩ := q
    rw [SortedKeys, List.pairwise_cons] at hs
    obtain ⟨hhead, hrest⟩ := hs
    simp only [btreeInsert]
    by_cases h1 : lexLt k.data k2.data = true
    · rw [if_pos h1, SortedKeys, List.pairwise_cons]
      constructor
      · intro q hq
        rcases List.mem_cons.mp hq with hq | hq
        · subst hq
          exact h1
        · exact lexLt_trans _ _ _ h1 (hhead q hq)
      · rw [List.pairwise_cons]
        exact ⟨hhead, hrest⟩
    · by_cases h2 : k = k2
      · subst h2
        rw [if_neg h1, if_pos rfl, SortedKeys, List.pairwise_cons]
        exact ⟨hhead, hrest⟩
      · rw [if_neg h1, if_neg h2, SortedKeys, List.pairwise_cons]
        have hk2k : lexLt k2.data k.data = true := by
          rcases lexLt_total k2.data k.data with h | h | h
          · exact h
          · exact absurd h h1
          · exact absurd (String.ext h) (fun he => h2 he.symm)
        constructor
        · intro q hq
          rcases mem_btreeInsert hq with hq | hq
          · rw [hq]
            exact hk2k
          · exact hhead q hq
        · exact ih hrest

theorem lookup_eq_none_of_ne {α : Type} (m : List (String × α)) (k : String)
    (h : ∀ p ∈ m, p.1 ≠ k) : m.lookup k = none := by
  induction m with
  | nil => rfl
  | cons p rest ih =>
    obtain ⟨k2, v2⟩ := p
    have hne : k ≠ k2 := fun he => h (k2, v2) (List.mem_cons_self _ _) he.symm
    rw [lookup_cons_ne _ _ hne]
    exact ih (fun p hp => h p (List.mem_cons_of_mem _ hp))

theorem lookup_btreeUpdate_self {α : Type} (k : String) (f : α → α) (d : α)
    (m : List (String × α)) (hs : SortedKeys m) :
    (btreeUpdate k f d m).lookup k = some (f ((m.lookup k).getD d)) := by
  induction m with
  | nil => simp [btreeUpdate, List.lookup]
  | cons p rest ih =>
    obtain ⟨k2, v2⟩ := p
    rw [SortedKeys, List.pairwise_cons] at hs
    obtain ⟨hhead, hrest⟩ := hs
    simp only [btreeUpdate]
    by_cases h1 : lexLt k.data k2.data = true
    · rw [if_pos h1, lookup_cons_self]
      have hlk : List.lookup k ((k2, v2) :: rest) = none := by
        apply lookup_eq_none_of_ne
        intro p hp
        rcases List.mem_cons.mp hp with hp | hp
        · subst hp
          exact fun he => strNe_of_lexLt h1 he.symm
        · exact fun he => strNe_of_lexLt (lexLt_trans _ _ _ h1 (hhead p hp)) he.symm
      rw [hlk]
      rfl
    · by_cases h2 : k = k2
      · subst h2
        rw [if_neg h1, if_pos rfl, lookup_cons_self, lookup_cons_self]
        rfl
      · rw [if_neg h1, if_neg h2, lookup_cons_ne _ _ h2, lookup_cons_ne _ _ h2]
        exact ih hrest

theorem lookup_btreeUpdate_ne {α : Type} (k k' : String) (f : α → α) (d : α)
    (m : List (String × α)) (h : k' ≠ k) :
    (btreeUpdate k f d m).lookup k' = m.lookup k' := by
  induction m with
  | nil =>
    simp only [btreeUpdate]
    exact lookup_cons_ne _ _ h
  | cons p rest ih =>
    obtain ⟨k2, v2⟩ := p
    simp only [btreeUpdate]
    by_cases h1 : lexLt k.data k2.data = true
    · rw [if_pos h1, lookup_cons_ne _ _ h]
    · by_cases h2 : k = k2
      · subst h2
        rw [if_neg h1, if_pos rfl, lookup_cons_ne _ _ h, lookup_cons_ne _ _ h]
      · by_cases h3 : k' = k2
        · subst h3
          rw [if_neg h1, if_neg h2, lookup_cons_self, lookup_cons_self]
        · rw [if_neg h1, if_neg h2, lookup_cons_ne _ _ h3, lookup_cons_ne _ _ h3, ih]

theorem mem_btreeUpdate {α : Type} {p : String × α} {k : String} {f : α → α} {d : α} :
    ∀ {m : List (String × α)}, p ∈ btreeUpdate k f d m → p.1 = k ∨ p ∈ m := by
  intro m
  induction m with
  | nil =>
    intro hp
    simp only [btreeUpdate, List.mem_singleton] at hp
    subst hp
    exact Or.inl rfl
  | cons q rest ih =>
    intro hp
    obtain ⟨k2, v2⟩ := q
    simp only [btreeUpdate] at hp
    by_cases h1 : lexLt k.data k2.data = true
    · rw [if_pos h1] at hp
      rcases List.mem_cons.mp hp with hp | hp
      · subst hp
        exact Or.inl rfl
      · exact Or.inr hp
    · by_cases h2 : k = k2
      · rw [if_neg h1, if_pos h2] at hp
        rcases List.mem_cons.mp hp with hp | hp
        · subst hp
          exact Or.inl h2.symm
        · exact Or.inr (List.mem_cons_of_mem _ hp)
      · rw [if_neg h1, if_neg h2] at hp
        rcases List.mem_cons.mp hp with hp | hp
        · exact Or.inr (by simp [hp])
        · rcases ih hp with h | h
          · exact Or.inl h
          · exact Or.inr (List.mem_cons_of_mem _ h)

theorem sortedKeys_btreeUpdate {α : Type} {k : String} {f : α → α} {d : α}
    {m : List (String × α)} (hs : SortedKeys m) : SortedKeys (btreeUpdate k f d m) := by
  induction m with
  | nil => simp [btreeUpdate, SortedKeys]
  | cons q rest ih =>
    obtain ⟨k2, v2⟩ := q
    rw [SortedKeys, List.pairwise_cons] at hs
    obtain ⟨hhead, hrest⟩ := hs
    simp only [btreeUpdate]
    by_cases h1 : lexLt k.data k2.data = true
    · rw [if_pos h1, SortedKeys, List.pairwise_cons]
      constructor
      · intro q hq
        rcases List.mem_cons.mp hq with hq | hq
        · subst hq
          exact h1
        · exact lexLt_trans _ _ _ h1 (hhead q hq)
      · rw [List.pairwise_cons]
        exact ⟨hhead, hrest⟩
    · by_cases h2 : k = k2
      · subst h2
        rw [if_neg h1, if_pos rfl, SortedKeys, List.pairwise_cons]
        exact ⟨hhead, hrest⟩
      · rw [if_neg h1, if_neg h2, SortedKeys, List.pairwise_cons]
        have hk2k : lexLt k2.data k.data = true := by
          rcases lexLt_total k2.data k.data with h | h | h
          · exact h
          · exact absurd h h1
          · exact absurd (String.ext h) (fun he => h2 he.symm)
        constructor
        · intro q hq
          rcases mem_btreeUpdate hq with hq | hq
          · rw [hq]
            exact hk2k
          · exact hhead q hq
        · exact ih hrest

/-! ## Claims C1, C3: the Android zero quantity and the panicking helpers -/

/-- Claim C1 (code bug): the claim states every emitted item quantity is the
lowercase CLDR category name, in particular `zero` for the zero category.
The code disagrees: `PluralVariate::android_key` returns the capitalized
string for `Zero`, so a catalog whose only entry has a plural variation
populated at the zero category renders an item whose quantity attribute is
capitalized, while the other five categories stay lowercase. -/
theorem claim_C1_zero_quantity_capitalized :
    Output.PluralVariate.android_key .Zero = "Zero" ∧
    Output.PluralVariate.android_key .Zero ≠ "zero" ∧
    (Output.from_string
        { source_language := "en"
          strings := [("x", { comment := ""
                              localizations := [("en", .Variation ⟨⟨{ zero := some ⟨⟨"translated", "Z"⟩⟩
                                                                      one := none, two := none
                                                                      other := none, many := none
                                                                      few := none }⟩⟩)] })]
          version := "1.0" }).map
        (fun p =>
          (p.localizable.localized_per_language.localized_for_android default).map
            (fun lfa => lfa.sorted_languages)) =
      .ok (.ok [("en",
        "<resources>\n<plurals name=\"x\">\n<item quantity=\"Zero\">Z</item>\n</plurals>\n</resources>")]) :=
  ⟨rfl, by decide, rfl⟩

/-- Claim C3 (code bug): the claim states every variant-assuming helper
returns a typed error on a variant mismatch.  The code disagrees:
`Translation::expect_localization` and `Translation::expect_plural_variation`
`panic!` (abort the process, embedded as `none`) when handed the other
variant. -/
theorem claim_C3_expect_helpers_abort :
    Output.Translation.expect_localization (.PluralVariation []) = none ∧
    Output.Translation.expect_plural_variation
      (.Localization ⟨"translated", "Hello"⟩) = none :=
  ⟨rfl, rfl⟩

/-! ## Claim C6: source-language fallback -/

/-- Claim C6: when the localization map built for an entry lacks the source
language, `parse::from_string` synthesizes a localization whose value is the
raw key and whose state is `translated`; when the source language is present
the map is left unchanged. -/
theorem claim_C6_source_language_fallback :
    ∀ (src key : String) (lang : Input.Language),
      ((Output.buildLocalizationValue lang.localizations).lookup src = none →
        (Output.single_translation_of src (key, lang)).localization_value.language_translation.lookup src
          = some (.Localization ⟨TRANSLATED_STATE, key⟩)) ∧
      (((Output.buildLocalizationValue lang.localizations).lookup src).isSome = true →
        (Output.single_translation_of src (key, lang)).localization_value.language_translation
          = Output.buildLocalizationValue lang.localizations) := by
  intro src key lang
  constructor
  · intro h
    simp only [Output.single_translation_of, Output.withSourceFallback]
    rw [if_pos (by rw [h]; rfl)]
    exact lookup_btreeInsert_self _ _ _
  · intro h
    simp only [Output.single_translation_of, Output.withSourceFallback]
    rw [if_neg (by rw [Option.isNone_iff_eq_none]; intro hn; rw [hn] at h; simp at h)]

/-- Witness for C6 at concrete inputs: one entry without the source language
gets the synthesized localization, one entry with it is left unchanged. -/
theorem claim_C6_source_language_fallback_witness :
    ((Output.single_translation_of "en"
        ("hello", { comment := "", localizations := [] })).localization_value.language_translation.lookup "en"
      = some (.Localization ⟨TRANSLATED_STATE, "hello"⟩)) ∧
    ((Output.single_translation_of "en"
        ("hello", { comment := ""
                    localizations := [("en", .StringUnit ⟨⟨"new", "Hi"⟩⟩)] })).localization_value.language_translation
      = Output.buildLocalizationValue [("en", Input.TranslationTypeContainer.StringUnit ⟨⟨"new", "Hi"⟩⟩)]) :=
  ⟨(claim_C6_source_language_fallback "en" "hello" _).1 (by decide),
   (claim_C6_source_language_fallback "en" "hello" _).2 (by decide)⟩

/-! ## Claim C7: key validation is the only post-deserialization failure -/

theorem processEntries_eq_ok (src : String) :
    ∀ l : List (String × Input.Language),
      (∀ p ∈ l, rustTrim p.1.data = p.1.data) →
      Output.processEntries src l = .ok (l.map (Output.single_translation_of src)) := by
  intro l
  induction l with
  | nil => intro h; rfl
  | cons p rest ih =>
    intro h
    simp only [Output.processEntries]
    rw [if_neg (fun hne => hne (h p (List.mem_cons_self p rest))),
      ih (fun q hq => h q (List.mem_cons_of_mem _ hq))]
    rfl

theorem processEntries_eq_error (src : String) :
    ∀ l : List (String × Input.Language),
      (∃ p ∈ l, rustTrim p.1.data ≠ p.1.data) →
      ∃ k, (∃ p ∈ l, p.1 = k) ∧ rustTrim k.data ≠ k.data ∧
        Output.processEntries src l = .error (.InvalidTranslationKey k) := by
  intro l
  induction l with
  | nil => rintro ⟨p, hp, _⟩; exact absurd hp (List.not_mem_nil p)
  | cons p rest ih =>
    intro h
    by_cases hp : rustTrim p.1.data ≠ p.1.data
    · refine ⟨p.1, ⟨p, List.mem_cons_self p rest, rfl⟩, hp, ?_⟩
      simp only [Output.processEntries]
      rw [if_pos hp]
    · obtain ⟨q, hq, hqbad⟩ := h
      rcases List.mem_cons.mp hq with hq | hq
      · exact absurd (hq ▸ hqbad) hp
      · obtain ⟨k, ⟨q', hq', hk⟩, hkbad, herr⟩ := ih ⟨q, hq, hqbad⟩
        refine ⟨k, ⟨q', List.mem_cons_of_mem _ hq', hk⟩, hkbad, ?_⟩
        simp only [Output.processEntries]
        rw [if_neg hp, herr]

/-- Claim C7: after successful deserialization, `from_string` fails exactly on
keys with surrounding whitespace, reporting `InvalidTranslationKey` with the
offending key; when every key is trimmed the parse succeeds (no other
validation exists).  In particular the single-key catalog whose key has a
leading space fails with `InvalidTranslationKey` of that key. -/
theorem claim_C7_invalid_translation_key :
    ∀ t : Input.Translation,
      ((∀ p ∈ t.strings, rustTrim p.1.data = p.1.data) →
        (Output.from_string t).isOk = true) ∧
      ((∃ p ∈ t.strings, rustTrim p.1.data ≠ p.1.data) →
        ∃ k, (∃ p ∈ t.strings, p.1 = k) ∧ rustTrim k.data ≠ k.data ∧
          Output.from_string t = .error (.InvalidTranslationKey k)) ∧
      (∀ (src version : String) (lang : Input.Language),
        Output.from_string ⟨src, [(" hello", lang)], version⟩ =
          .error (.InvalidTranslationKey " hello")) := by
  intro t
  refine ⟨?_, ?_, ?_⟩
  · intro h
    simp only [Output.from_string]
    rw [processEntries_eq_ok t.source_language t.strings h]
    rfl
  · intro h
    obtain ⟨k, hkmem, hkbad, herr⟩ := processEntries_eq_error t.source_language t.strings h
    refine ⟨k, hkmem, hkbad, ?_⟩
    simp only [Output.from_string]
    rw [herr]
  · intro src version lang
    simp only [Output.from_string, Output.processEntries]
    rw [if_pos (by decide : rustTrim (" hello" : String).data ≠ (" hello" : String).data)]

/-- Witness for C7 at concrete catalogs: a trimmed single-key catalog parses,
and a catalog whose key has a leading space reports exactly that key. -/
theorem claim_C7_invalid_translation_key_witness :
    (Output.from_string ⟨"en", [("hello", ⟨"", []⟩)], "1.0"⟩).isOk = true ∧
    (∃ k, (∃ p ∈ [((" a" : String), (⟨"", []⟩ : Input.Language))], p.1 = k) ∧
      rustTrim k.data ≠ k.data ∧
      Output.from_string ⟨"en", [(" a", ⟨"", []⟩)], "1.0"⟩ =
        .error (.InvalidTranslationKey k)) :=
  ⟨(claim_C7_invalid_translation_key ⟨"en", [("hello", ⟨"", []⟩)], "1.0"⟩).1 (by decide),
   (claim_C7_invalid_translation_key ⟨"en", [(" a", ⟨"", []⟩)], "1.0"⟩).2.1
     ⟨(" a", ⟨"", []⟩), by decide, by decide⟩⟩

/-! ## Claim C8: Android text sanitization -/

theorem replaceQuote_eq_self :
    ∀ l : List Char, '\'' ∉ l → Output.replaceQuote l = l := by
  intro l
  induction l with
  | nil => intro h; rfl
  | cons c rest ih =>
    intro h
    have hc : ¬ c = '\'' := fun he => h (he ▸ List.mem_cons_self c rest)
    simp only [Output.replaceQuote]
    rw [if_neg hc, ih (fun hm => h (List.mem_cons_of_mem _ hm))]

theorem replaceLld_eq_self :
    ∀ l : List Char, ¬ (['$', 'l', 'l', 'd'] <:+: l) → Output.replaceLld l = l := by
  intro l
  induction l using Output.replaceLld.induct with
  | case1 rest ih =>
    intro h
    exact absurd ⟨[], rest, rfl⟩ h
  | case2 c rest hside ih =>
    intro h
    have hstep : Output.replaceLld (c :: rest) = c :: Output.replaceLld rest := by
      rw [Output.replaceLld.eq_def]
      split
      · next x rest1 heq =>
        injection heq with h1 h2
        exact (hside rest1 h1 h2).elim
      · next x c2 rest2 hside2 heq =>
        injection heq with h1 h2
        subst h1
        subst h2
        rfl
      · next x heq =>
        exact (List.cons_ne_nil c rest heq).elim
    rw [hstep, ih (fun hi => h (List.infix_cons hi))]
  | case3 =>
    intro h
    rfl

/-- Claim C8: `sanitize_for_android` is exactly the quote substitution
followed by the dollar-l-l-d substitution; a value containing neither a quote
nor that pattern is returned unchanged; and the documented example holds. -/
theorem claim_C8_sanitize_for_android :
    (∀ tv : Inout.TranslationValue,
      Output.TranslationValue.sanitize_for_android tv =
        String.mk (Output.replaceLld (Output.replaceQuote tv.value.data))) ∧
    (∀ tv : Inout.TranslationValue,
      '\'' ∉ tv.value.data → ¬ (['$', 'l', 'l', 'd'] <:+: tv.value.data) →
      Output.TranslationValue.sanitize_for_android tv = tv.value) ∧
    Output.TranslationValue.sanitize_for_android
        ⟨"translated",
          String.mk ['I', 't', '\'', 's', ' ', '%', '1', '$', 'l', 'l', 'd', ' ',
            'i', 't', 'e', 'm', 's']⟩ =
      String.mk ['I', 't', '\\', '\'', 's', ' ', '%', '1', '$', 'd', ' ',
        'i', 't', 'e', 'm', 's'] := by
  refine ⟨fun tv => rfl, ?_, by decide⟩
  intro tv hq hl
  simp only [Output.TranslationValue.sanitize_for_android]
  rw [replaceQuote_eq_self _ hq, replaceLld_eq_self _ hl]

/-- Witness for C8: a value with no quote and no dollar-l-l-d pattern is
unchanged, applying the identity clause at a concrete input. -/
theorem claim_C8_sanitize_for_android_witness :
    Output.TranslationValue.sanitize_for_android ⟨"new", "Hello"⟩ = "Hello" :=
  claim_C8_sanitize_for_android.2.1 ⟨"new", "Hello"⟩ (by decide) (by decide)

/-! ## Claim C9: fixed plural extraction and rendering order -/

/-- Claim C9: the populated plural slots are collected by iterating the fixed
table zero, one, two, few, many, other (only populated slots contribute), and
a variation populated only at many and other renders a plurals block with
exactly two items, many before other. -/
theorem claim_C9_plural_order :
    (∀ v : Inout.Variation,
      Output.extractPlural v =
        ([(Output.PluralVariate.Zero, v.plural.zero), (.One, v.plural.one),
          (.Two, v.plural.two), (.Few, v.plural.few), (.Many, v.plural.many),
          (.Other, v.plural.other)]).filterMap
          (fun p => p.2.map
            (fun o => ({ variate := p.1, translation_value := o.string_unit } :
              Output.SinglePluralVariation)))) ∧
    (∀ (kraw kan comment : String) (a b : Inout.StringUnitContainer),
      Output.renderSingle
          { key_raw := kraw
            key_alphanumeric := kan
            translation := .PluralVariation
              (Output.extractPlural ⟨{ zero := none, one := none, two := none
                                       other := some b, many := some a, few := none }⟩)
            comment := comment } =
        String.intercalate "\n"
          ["<plurals name=\"" ++ kan ++ "\">",
           "<item quantity=\"many\">" ++
             Output.TranslationValue.sanitize_for_android a.string_unit ++ "</item>",
           "<item quantity=\"other\">" ++
             Output.TranslationValue.sanitize_for_android b.string_unit ++ "</item>",
           "</plurals>"]) := by
  constructor
  · intro v
    obtain ⟨⟨z, o, t, ot, m, f⟩⟩ := v
    cases z <;> cases o <;> cases t <;> cases ot <;> cases m <;> cases f <;> rfl
  · intro kraw kan comment a b
    rfl

/-! ## Claims C2 and C4: the per-language aggregation -/

theorem sortedKeys_nil {α : Type} : SortedKeys ([] : List (String × α)) :=
  List.Pairwise.nil

theorem sortedKeys_bucketFold_inner (st : Output.SingleTranslation) :
    ∀ (ps : List (String × Output.Translation))
      (acc : List (String × Output.LocalizedPerLanguageInfo)),
      SortedKeys acc → SortedKeys (ps.foldl (Output.bucketStep st) acc) := by
  intro ps
  induction ps with
  | nil => intro acc h; exact h
  | cons p ps ih =>
    intro acc h
    exact ih _ (sortedKeys_btreeUpdate h)

theorem lookup_bucketFold_inner (st : Output.SingleTranslation) (lang : String) :
    ∀ (ps : List (String × Output.Translation))
      (acc : List (String × Output.LocalizedPerLanguageInfo)),
      SortedKeys acc →
      ((ps.foldl (Output.bucketStep st) acc).lookup lang).getD default =
        { word_count := ((acc.lookup lang).getD default).word_count +
            ((ps.filter (fun p => p.1 == lang)).map
              (fun p => Output.translationWordCount p.2)).sum
          translations := ((acc.lookup lang).getD default).translations ++
            (ps.filter (fun p => p.1 == lang)).map (fun p => Output.recordOf st p.2) } := by
  intro ps
  induction ps with
  | nil =>
    intro acc h
    simp
  | cons p ps ih =>
    intro acc h
    have hsort : SortedKeys (Output.bucketStep st acc p) := sortedKeys_btreeUpdate h
    rw [List.foldl_cons, ih (Output.bucketStep st acc p) hsort]
    by_cases hp : p.1 = lang
    · have hbeq : (p.1 == lang) = true := beq_iff_eq.mpr hp
      have hupd :
          ((Output.bucketStep st acc p).lookup lang).getD default =
            { word_count := ((acc.lookup lang).getD default).word_count +
                Output.translationWordCount p.2
              translations := ((acc.lookup lang).getD default).translations ++
                [Output.recordOf st p.2] } := by
        simp only [Output.bucketStep, hp]
        rw [lookup_btreeUpdate_self lang _ _ acc h]
        rfl
      rw [hupd]
      simp [List.filter_cons, hbeq, Nat.add_assoc, List.append_assoc]
    · have hbeq : (p.1 == lang) = false := beq_eq_false_iff_ne.mpr hp
      have hupd : ((Output.bucketStep st acc p).lookup lang) = acc.lookup lang := by
        simp only [Output.bucketStep]
        exact lookup_btreeUpdate_ne p.1 lang _ _ acc (fun he => hp he.symm)
      rw [hupd]
      simp only [List.filter_cons, hbeq]
      rfl

theorem lookup_bucketFold_outer (lang : String) :
    ∀ (sts : List Output.SingleTranslation)
      (acc : List (String × Output.LocalizedPerLanguageInfo)),
      SortedKeys acc →
      ((sts.foldl
          (fun acc st =>
            st.localization_value.language_translation.foldl (Output.bucketStep st) acc)
          acc).lookup lang).getD default =
        { word_count := ((acc.lookup lang).getD default).word_count +
            (sts.map (fun st =>
              ((st.localization_value.language_translation.filter (fun p => p.1 == lang)).map
                (fun p => Output.translationWordCount p.2)).sum)).sum
          translations := ((acc.lookup lang).getD default).translations ++
            sts.flatMap (fun st =>
              (st.localization_value.language_translation.filter (fun p => p.1 == lang)).map
                (fun p => Output.recordOf st p.2)) } := by
  intro sts
  induction sts with
  | nil =>
    intro acc h
    simp
  | cons st sts ih =>
    intro acc h
    have hsort :
        SortedKeys
          (st.localization_value.language_translation.foldl (Output.bucketStep st) acc) :=
      sortedKeys_bucketFold_inner st _ _ h
    rw [List.foldl_cons,
      ih (st.localization_value.language_translation.foldl (Output.bucketStep st) acc) hsort,
      lookup_bucketFold_inner st lang _ _ h]
    simp [List.map_cons, List.sum_cons, List.flatMap_cons, Nat.add_assoc, List.append_assoc]

/-- Claim C2: `localized_per_language` computes each language bucket's
`word_count` as the whitespace-token count of the translation text, summed
over every entry of that language: for a `Localization` the token count of
its value, for a `PluralVariation` the sum of the token counts of the
populated variants.  A language absent from every entry has count zero. -/
theorem claim_C2_word_count :
    ∀ (l : Output.Localizable) (lang : String),
      ((((Output.Localizable.localized_per_language l).language_localized.lookup lang).getD
          default).word_count) =
        (l.single_translation.map (fun st =>
          ((st.localization_value.language_translation.filter (fun p => p.1 == lang)).map
            (fun p =>
              match p.2 with
              | .Localization tv => wordsCountWords tv.value
              | .PluralVariation pv =>
                (pv.map (fun single => wordsCountWords single.translation_value.value)).sum)).sum)).sum := by
  intro l lang
  have hmatch :
      (fun p : String × Output.Translation =>
        match p.2 with
        | .Localization tv => wordsCountWords tv.value
        | .PluralVariation pv =>
          (pv.map (fun single => wordsCountWords single.translation_value.value)).sum) =
      (fun p : String × Output.Translation => Output.translationWordCount p.2) := by
    funext p
    cases p.2 <;> rfl
  rw [hmatch]
  simp only [Output.Localizable.localized_per_language]
  rw [lookup_bucketFold_outer lang l.single_translation [] sortedKeys_nil]
  simp
  rfl

theorem strLe_refl (a : String) : strLe a a := lexLt_irrefl a.data

theorem strLe_total (a b : String) : strLe a b ∨ strLe b a := by
  by_cases h : lexLt b.data a.data = true
  · right
    exact lexLt_asymm _ _ h
  · left
    exact Bool.eq_false_iff.mpr h

theorem strLe_trans {a b c : String} (h1 : strLe a b) (h2 : strLe b c) : strLe a c := by
  by_cases hca : lexLt c.data a.data = true
  · by_cases hab : lexLt a.data b.data = true
    · have hcb := lexLt_trans c.data a.data b.data hca hab
      rw [h2] at hcb
      exact absurd hcb Bool.false_ne_true
    · have hab' : lexLt a.data b.data = false := Bool.eq_false_iff.mpr hab
      have heq : a.data = b.data := lexLt_eq_of_not_lt a.data b.data hab' h1
      rw [heq] at hca
      rw [h2] at hca
      exact absurd hca Bool.false_ne_true
  · exact Bool.eq_false_iff.mpr hca

theorem sorted_insertionSort_keyRawLe (l : List Output.SingleTranslation) :
    List.Sorted Output.keyRawLe (List.insertionSort Output.keyRawLe l) := by
  haveI : IsTotal Output.SingleTranslation Output.keyRawLe :=
    ⟨fun a b => strLe_total a.key_raw b.key_raw⟩
  haveI : IsTrans Output.SingleTranslation Output.keyRawLe :=
    ⟨fun a b c hab hbc => strLe_trans hab hbc⟩
  exact List.sorted_insertionSort _ l

theorem pairwise_of_all {α : Type} {R : α → α → Prop} :
    ∀ l : List α, (∀ a ∈ l, ∀ b ∈ l, R a b) → l.Pairwise R := by
  intro l
  induction l with
  | nil => intro h; exact List.Pairwise.nil
  | cons a l ih =>
    intro h
    rw [List.pairwise_cons]
    constructor
    · intro b hb
      exact h a (List.mem_cons_self a l) b (List.mem_cons_of_mem _ hb)
    · exact ih (fun x hx y hy => h x (List.mem_cons_of_mem _ hx) y (List.mem_cons_of_mem _ hy))

theorem key_raw_of_mem_records {st : Output.SingleTranslation} {lang : String}
    {x : Output.SingleLocalizedPerLanguage}
    (hx : x ∈ (st.localization_value.language_translation.filter
        (fun q => q.1 == lang)).map (fun q => Output.recordOf st q.2)) :
    x.key_raw = st.key_raw := by
  obtain ⟨q, hq, heq⟩ := List.mem_map.mp hx
  rw [← heq]
  rfl

/-- Claim C4: a successful parse yields entries sorted ascending by `key_raw`,
and `localized_per_language` fills every language bucket in entry order (the
bucket is the in-order flat-map of the entries owning that language), so each
bucket is key-sorted without re-sorting. -/
theorem claim_C4_sorted_entries_and_buckets :
    ∀ (t : Input.Translation) (p : Output.Parsed),
      Output.from_string t = .ok p →
      List.Sorted Output.keyRawLe p.localizable.single_translation ∧
      ∀ lang : String,
        ((((Output.Localizable.localized_per_language p.localizable).language_localized.lookup
            lang).getD default).translations =
          p.localizable.single_translation.flatMap (fun st =>
            (st.localization_value.language_translation.filter (fun q => q.1 == lang)).map
              (fun q => Output.recordOf st q.2))) ∧
        List.Pairwise (fun a b => strLe a.key_raw b.key_raw)
          ((((Output.Localizable.localized_per_language p.localizable).language_localized.lookup
              lang).getD default).translations) := by
  intro t p h
  have hsorted : List.Sorted Output.keyRawLe p.localizable.single_translation := by
    cases hpe : Output.processEntries t.source_language t.strings with
    | error e =>
      simp only [Output.from_string, hpe] at h
      exact Except.noConfusion h
    | ok entries =>
      simp only [Output.from_string, hpe] at h
      injection h with h
      rw [← h]
      exact sorted_insertionSort_keyRawLe entries
  have hbucket :
      ∀ lang : String,
        ((((Output.Localizable.localized_per_language p.localizable).language_localized.lookup
            lang).getD default).translations =
          p.localizable.single_translation.flatMap (fun st =>
            (st.localization_value.language_translation.filter (fun q => q.1 == lang)).map
              (fun q => Output.recordOf st q.2))) := by
    intro lang
    simp only [Output.Localizable.localized_per_language]
    rw [lookup_bucketFold_outer lang p.localizable.single_translation [] sortedKeys_nil]
    simp
    rfl
  refine ⟨hsorted, fun lang => ⟨hbucket lang, ?_⟩⟩
  rw [hbucket lang]
  rw [List.pairwise_flatMap]
  constructor
  · intro st hst
    apply pairwise_of_all
    intro x hx y hy
    rw [key_raw_of_mem_records hx, key_raw_of_mem_records hy]
    exact strLe_refl _
  · apply List.Pairwise.imp ?_ hsorted
    intro a b hab x hx y hy
    rw [key_raw_of_mem_records hx, key_raw_of_mem_records hy]
    exact hab

/-- Witness for C4: parsing a concrete two-key catalog given in descending
key order yields the ascending entry sequence. -/
theorem claim_C4_sorted_entries_and_buckets_witness :
    List.Sorted Output.keyRawLe
      [{ key_raw := "a", key_alphanumeric := "a"
         localization_value := ⟨[("en", Output.Translation.Localization ⟨"translated", "a"⟩)]⟩
         comment := "" },
       { key_raw := "b", key_alphanumeric := "b"
         localization_value := ⟨[("en", Output.Translation.Localization ⟨"translated", "b"⟩)]⟩
         comment := "" }] :=
  (claim_C4_sorted_entries_and_buckets
    ⟨"en", [("b", ⟨"", []⟩), ("a", ⟨"", []⟩)], "1"⟩
    { localizable :=
        { source_language := "en"
          single_translation :=
            [{ key_raw := "a", key_alphanumeric := "a"
               localization_value :=
                 ⟨[("en", Output.Translation.Localization ⟨"translated", "a"⟩)]⟩
               comment := "" },
             { key_raw := "b", key_alphanumeric := "b"
               localization_value :=
                 ⟨[("en", Output.Translation.Localization ⟨"translated", "b"⟩)]⟩
               comment := "" }] }
      translation := ⟨"en", [("b", ⟨"", []⟩), ("a", ⟨"", []⟩)], "1"⟩ }
    (by rfl)).1

/-! ## Claim C5: shape of the sanitized Android key -/

theorem toNat_ofNat_lower {n : Nat} (h1 : 97 ≤ n) (h2 : n ≤ 122) :
    (Char.ofNat n).toNat = n := by
  have hv : n.isValidChar := Or.inl (by omega)
  simp [Char.ofNat, hv, Char.ofNatAux, Char.toNat, UInt32.toNat, BitVec.toNat_ofNatLt]

theorem toLower_eq_self_of_not_upper {c : Char}
    (h : ¬(c.toNat ≥ 65 ∧ c.toNat ≤ 90)) : Char.toLower c = c := by
  simp only [Char.toLower]
  rw [if_neg h]

theorem toLower_toNat_of_upper {c : Char} (h1 : 65 ≤ c.toNat) (h2 : c.toNat ≤ 90) :
    (Char.toLower c).toNat = c.toNat + 32 := by
  simp only [Char.toLower]
  rw [if_pos ⟨h1, h2⟩]
  exact toNat_ofNat_lower (by omega) (by omega)

theorem eq_underscore_iff_toNat {c : Char} : c = '_' ↔ c.toNat = 95 := by
  constructor
  · intro h
    subst h
    rfl
  · intro h
    have hc := Char.ofNat_toNat c
    rw [h] at hc
    rw [← hc]

theorem isAlnumAscii_iff {c : Char} :
    isAlnumAscii c = true ↔
      (97 ≤ c.toNat ∧ c.toNat ≤ 122) ∨ (65 ≤ c.toNat ∧ c.toNat ≤ 90) ∨
        (48 ≤ c.toNat ∧ c.toNat ≤ 57) := by
  simp [isAlnumAscii]
  tauto

theorem isLowerAlnumU_iff {c : Char} :
    isLowerAlnumU c = true ↔
      (97 ≤ c.toNat ∧ c.toNat ≤ 122) ∨ (48 ≤ c.toNat ∧ c.toNat ≤ 57) ∨ c.toNat = 95 := by
  simp [isLowerAlnumU]
  tauto

theorem ne_underscore_of_isAlnumAscii {c : Char} (h : isAlnumAscii c = true) : c ≠ '_' := by
  rw [Ne, eq_underscore_iff_toNat]
  rcases isAlnumAscii_iff.mp h with h | h | h <;> omega

theorem isLowerAlnumU_toLower_of_isAlnumAscii {c : Char} (h : isAlnumAscii c = true) :
    isLowerAlnumU (Char.toLower c) = true ∧ Char.toLower c ≠ '_' := by
  rcases isAlnumAscii_iff.mp h with h | h | h
  · rw [toLower_eq_self_of_not_upper (by omega)]
    rw [isLowerAlnumU_iff, Ne, eq_underscore_iff_toNat]
    omega
  · have ht := toLower_toNat_of_upper h.1 h.2
    rw [isLowerAlnumU_iff, Ne, eq_underscore_iff_toNat, ht]
    omega
  · rw [toLower_eq_self_of_not_upper (by omega)]
    rw [isLowerAlnumU_iff, Ne, eq_underscore_iff_toNat]
    omega

theorem toLower_eq_underscore_iff {c : Char} : Char.toLower c = '_' ↔ c = '_' := by
  constructor
  · intro h
    by_cases hu : c.toNat ≥ 65 ∧ c.toNat ≤ 90
    · have ht := toLower_toNat_of_upper hu.1 hu.2
      rw [eq_underscore_iff_toNat, ht] at h
      omega
    · rw [toLower_eq_self_of_not_upper hu] at h
      exact h
  · intro h
    subst h
    rfl

theorem isAlnumAscii_of_isLowerAlnumU_ne {c : Char} (h : isLowerAlnumU c = true)
    (hne : c ≠ '_') : isAlnumAscii c = true := by
  rw [Ne, eq_underscore_iff_toNat] at hne
  rw [isAlnumAscii_iff]
  rcases isLowerAlnumU_iff.mp h with h | h | h
  · exact Or.inl h
  · exact Or.inr (Or.inr h)
  · exact absurd h hne

theorem isLowerAlnumU_underscore : isLowerAlnumU '_' = true := by decide

theorem mem_replaceRunsGo {c : Char} :
    ∀ (b : Bool) (l : List Char), c ∈ replaceRunsGo b l →
      isAlnumAscii c = true ∨ c = '_' := by
  intro b l
  induction l generalizing b with
  | nil => intro h; exact absurd h (List.not_mem_nil c)
  | cons d rest ih =>
    intro h
    simp only [replaceRunsGo] at h
    by_cases hd : isAlnumAscii d = true
    · rw [if_pos hd] at h
      rcases List.mem_cons.mp h with h | h
      · exact Or.inl (h ▸ hd)
      · exact ih false h
    · rw [if_neg hd] at h
      cases b with
      | true =>
        rw [if_pos rfl] at h
        exact ih true h
      | false =>
        rw [if_neg (by simp)] at h
        rcases List.mem_cons.mp h with h | h
        · exact Or.inr h
        · exact ih true h

theorem head_replaceRunsGo_true :
    ∀ l : List Char, ∀ c, (replaceRunsGo true l).head? = some c → c ≠ '_' := by
  intro l
  induction l with
  | nil => intro c h; exact absurd h (by simp [replaceRunsGo])
  | cons d rest ih =>
    intro c h
    simp only [replaceRunsGo] at h
    by_cases hd : isAlnumAscii d = true
    · rw [if_pos hd] at h
      simp only [List.head?_cons, Option.some.injEq] at h
      subst h
      exact ne_underscore_of_isAlnumAscii hd
    · rw [if_neg hd, if_pos trivial] at h
      exact ih c h

theorem chain_replaceRunsGo :
    ∀ (l : List Char) (b : Bool),
      (replaceRunsGo b l).Chain' (fun a b => ¬(a = '_' ∧ b = '_')) := by
  intro l
  induction l with
  | nil => intro b; simp [replaceRunsGo]
  | cons d rest ih =>
    intro b
    simp only [replaceRunsGo]
    by_cases hd : isAlnumAscii d = true
    · rw [if_pos hd]
      rw [List.chain'_cons']
      constructor
      · intro y hy
        exact fun hc => ne_underscore_of_isAlnumAscii hd hc.1
      · exact ih false
    · rw [if_neg hd]
      cases b with
      | true =>
        rw [if_pos rfl]
        exact ih true
      | false =>
        rw [if_neg (by simp)]
        rw [List.chain'_cons']
        constructor
        · intro y hy
          exact fun hc => head_replaceRunsGo_true rest y hy hc.2
        · exact ih true

theorem head?_dropWhile_not {α : Type} (p : α → Bool) :
    ∀ l : List α, ∀ c, (l.dropWhile p).head? = some c → p c = false := by
  intro l
  induction l with
  | nil => intro c h; exact absurd h (by simp)
  | cons a l ih =>
    intro c h
    rw [List.dropWhile_cons] at h
    by_cases hp : p a = true
    · rw [if_pos hp] at h
      exact ih c h
    · rw [if_neg hp] at h
      injection h with h
      subst h
      exact Bool.eq_false_iff.mpr hp

theorem dropWhile_eq_self_of_head {α : Type} (p : α → Bool) (l : List α)
    (h : ∀ c, l.head? = some c → p c = false) : l.dropWhile p = l := by
  cases l with
  | nil => rfl
  | cons a l =>
    rw [List.dropWhile_cons, if_neg]
    rw [h a rfl]
    exact Bool.false_ne_true

theorem trimBoth_eq_self {α : Type} (p : α → Bool) (l : List α)
    (hh : ∀ c, l.head? = some c → p c = false)
    (hl : ∀ c, l.getLast? = some c → p c = false) :
    ((l.dropWhile p).reverse.dropWhile p).reverse = l := by
  rw [dropWhile_eq_self_of_head p l hh]
  rw [dropWhile_eq_self_of_head p l.reverse
    (fun c h => hl c (by rwa [List.head?_reverse] at h))]
  exact List.reverse_reverse l

theorem trimBoth_isPre {α : Type} (p : α → Bool) (l : List α) :
    ((l.dropWhile p).reverse.dropWhile p).reverse <+: l.dropWhile p := by
  have h1 := List.dropWhile_suffix (l := (l.dropWhile p).reverse) p
  have h2 := List.reverse_prefix.mpr h1
  rwa [List.reverse_reverse] at h2

theorem head?_of_isPrefix {α : Type} {l1 l2 : List α} (h : l1 <+: l2) {c : α}
    (hc : l1.head? = some c) : l2.head? = some c := by
  obtain ⟨t, rfl⟩ := h
  cases l1 with
  | nil => exact Option.noConfusion hc
  | cons a l =>
    injection hc with hc
    subst hc
    rfl

theorem chain'_trimBoth {α : Type} {R : α → α → Prop} (hsymm : ∀ a b, R a b → R b a)
    (p : α → Bool) {l : List α} (h : l.Chain' R) :
    (((l.dropWhile p).reverse.dropWhile p).reverse).Chain' R := by
  have h1 : (l.dropWhile p).Chain' R := h.suffix (List.dropWhile_suffix p)
  have h2 : ((l.dropWhile p).reverse).Chain' R :=
    List.chain'_reverse.mpr (h1.imp (fun a b hab => hsymm a b hab))
  have h3 : (((l.dropWhile p).reverse.dropWhile p)).Chain' R :=
    h2.suffix (List.dropWhile_suffix p)
  exact List.chain'_reverse.mpr (h3.imp (fun a b hab => hsymm a b hab))

theorem trimUnderscores_head_ne {l : List Char} {c : Char}
    (h : (trimUnderscores l).head? = some c) : c ≠ '_' := by
  simp only [trimUnderscores] at h
  have hp := head?_of_isPrefix (trimBoth_isPre _ l) h
  have hc := head?_dropWhile_not _ l c hp
  simpa using hc

theorem trimUnderscores_getLast_ne {l : List Char} {c : Char}
    (h : (trimUnderscores l).getLast? = some c) : c ≠ '_' := by
  simp only [trimUnderscores, List.getLast?_reverse] at h
  have hc := head?_dropWhile_not _ _ c h
  simpa using hc

theorem trimUnderscores_subset {l : List Char} {c : Char} (hc : c ∈ trimUnderscores l) :
    c ∈ l := by
  simp only [trimUnderscores] at hc
  have h1 := ((trimBoth_isPre _ l).sublist.subset) hc
  exact (List.dropWhile_sublist _).subset h1

theorem trimUnderscores_chain {l : List Char}
    (h : l.Chain' (fun a b => ¬(a = '_' ∧ b = '_'))) :
    (trimUnderscores l).Chain' (fun a b => ¬(a = '_' ∧ b = '_')) := by
  simp only [trimUnderscores]
  exact chain'_trimBoth (fun a b hab hc => hab ⟨hc.2, hc.1⟩) _ h

theorem replaceRunsGo_eq_self :
    ∀ l : List Char, (∀ c ∈ l, isLowerAlnumU c = true) →
      l.Chain' (fun a b => ¬(a = '_' ∧ b = '_')) →
      (replaceRunsGo false l = l ∧ (l.head? ≠ some '_' → replaceRunsGo true l = l)) := by
  intro l
  induction l with
  | nil => intro _ _; exact ⟨rfl, fun _ => rfl⟩
  | cons c rest ih =>
    intro hchars hchain
    rw [List.chain'_cons'] at hchain
    obtain ⟨hhead, hrest⟩ := hchain
    obtain ⟨ih1, ih2⟩ := ih (fun x hx => hchars x (List.mem_cons_of_mem _ hx)) hrest
    have hc : isLowerAlnumU c = true := hchars c (List.mem_cons_self _ _)
    by_cases hcu : c = '_'
    · subst hcu
      have hresthead : rest.head? ≠ some '_' := by
        intro hh
        exact (hhead '_' (Option.mem_def.mpr hh)) ⟨rfl, rfl⟩
      constructor
      · simp only [replaceRunsGo]
        rw [if_neg (by decide : ¬(isAlnumAscii '_' = true)),
          if_neg (by decide : ¬(false = true)), ih2 hresthead]
      · intro habs
        exact absurd rfl habs
    · have ha : isAlnumAscii c = true := isAlnumAscii_of_isLowerAlnumU_ne hc hcu
      constructor
      · simp only [replaceRunsGo]
        rw [if_pos ha, ih1]
      · intro _
        simp only [replaceRunsGo]
        rw [if_pos ha, ih1]

theorem toLower_eq_self_of_isLowerAlnumU {c : Char} (h : isLowerAlnumU c = true) :
    Char.toLower c = c := by
  rw [isLowerAlnumU_iff] at h
  exact toLower_eq_self_of_not_upper (by omega)

theorem map_toLower_eq_self :
    ∀ l : List Char, (∀ c ∈ l, isLowerAlnumU c = true) → l.map Char.toLower = l := by
  intro l
  induction l with
  | nil => intro _; rfl
  | cons c rest ih =>
    intro h
    rw [List.map_cons, toLower_eq_self_of_isLowerAlnumU (h c (List.mem_cons_self _ _)),
      ih (fun x hx => h x (List.mem_cons_of_mem _ hx))]

theorem not_whitespace_of_isLowerAlnumU {c : Char} (h : isLowerAlnumU c = true) :
    rustIsWhitespace c = false := by
  rw [isLowerAlnumU_iff] at h
  rw [Bool.eq_false_iff]
  intro hw
  simp [rustIsWhitespace] at hw
  omega

theorem mem_of_head?_eq {α : Type} {l : List α} {c : α} (h : l.head? = some c) : c ∈ l := by
  cases l with
  | nil => exact Option.noConfusion h
  | cons a t =>
    injection h with h
    subst h
    exact List.mem_cons_self _ _

theorem mem_of_getLast?_eq {α : Type} {l : List α} {c : α} (h : l.getLast? = some c) :
    c ∈ l := by
  rw [← List.head?_reverse] at h
  exact List.mem_reverse.mp (mem_of_head?_eq h)

theorem canonicalKey_sanitized (key : String) :
    CanonicalKey (sanitized_android_key key).data := by
  have hdata : (sanitized_android_key key).data =
      (trimUnderscores (replaceRuns (rustTrim key.data))).map Char.toLower := rfl
  rw [CanonicalKey, hdata]
  refine ⟨?_, ?_, ?_, ?_⟩
  · intro c hc
    obtain ⟨d, hd, rfl⟩ := List.mem_map.mp hc
    have hmem : d ∈ replaceRuns (rustTrim key.data) := trimUnderscores_subset hd
    rcases mem_replaceRunsGo false _ hmem with h | h
    · exact (isLowerAlnumU_toLower_of_isAlnumAscii h).1
    · subst h
      decide
  · rw [List.head?_map]
    intro habs
    rcases hh : (trimUnderscores (replaceRuns (rustTrim key.data))).head? with _ | d
    · rw [hh] at habs
      exact Option.noConfusion habs
    · rw [hh] at habs
      simp only [Option.map_some'] at habs
      injection habs with habs
      exact trimUnderscores_head_ne hh (toLower_eq_underscore_iff.mp habs)
  · rw [List.getLast?_map]
    intro habs
    rcases hh : (trimUnderscores (replaceRuns (rustTrim key.data))).getLast? with _ | d
    · rw [hh] at habs
      exact Option.noConfusion habs
    · rw [hh] at habs
      simp only [Option.map_some'] at habs
      injection habs with habs
      exact trimUnderscores_getLast_ne hh (toLower_eq_underscore_iff.mp habs)
  · rw [List.chain'_map]
    apply List.Chain'.imp ?_ (trimUnderscores_chain (chain_replaceRunsGo _ false))
    intro a b hab hc
    exact hab ⟨toLower_eq_underscore_iff.mp hc.1, toLower_eq_underscore_iff.mp hc.2⟩

theorem sanitized_eq_self_of_canonical {l : List Char} (h : CanonicalKey l) :
    sanitized_android_key (String.mk l) = String.mk l := by
  obtain ⟨hchars, hhead, hlast, hchain⟩ := h
  have h1 : rustTrim l = l := by
    simp only [rustTrim]
    apply trimBoth_eq_self
    · intro c hc
      exact not_whitespace_of_isLowerAlnumU (hchars c (mem_of_head?_eq hc))
    · intro c hc
      exact not_whitespace_of_isLowerAlnumU (hchars c (mem_of_getLast?_eq hc))
  have h2 : replaceRuns l = l := (replaceRunsGo_eq_self l hchars hchain).1
  have h3 : trimUnderscores l = l := by
    simp only [trimUnderscores]
    apply trimBoth_eq_self
    · intro c hc
      have hne : c ≠ '_' := fun he => hhead (he ▸ hc)
      simpa using hne
    · intro c hc
      have hne : c ≠ '_' := fun he => hlast (he ▸ hc)
      simpa using hne
  have h4 : l.map Char.toLower = l := map_toLower_eq_self l hchars
  show String.mk
      ((trimUnderscores (replaceRuns (rustTrim (String.mk l).data))).map Char.toLower) =
    String.mk l
  have hdata : (String.mk l).data = l := rfl
  rw [hdata, h1, h2, h3, h4]

/-- Claim C5: `key_alphanumeric` is computed by replacing every maximal run of
characters outside the alphanumeric class in the trimmed raw key by one
underscore, trimming underscores at both ends and lowercasing; consequently
it contains only lowercase alphanumerics and underscores, starts and ends
with no underscore, and the (deterministic) computation is idempotent. -/
theorem claim_C5_key_alphanumeric :
    ∀ key : String,
      sanitized_android_key key =
        String.mk ((trimUnderscores (replaceRuns (rustTrim key.data))).map Char.toLower) ∧
      (∀ c ∈ (sanitized_android_key key).data, isLowerAlnumU c = true) ∧
      (sanitized_android_key key).data.head? ≠ some '_' ∧
      (sanitized_android_key key).data.getLast? ≠ some '_' ∧
      sanitized_android_key (sanitized_android_key key) = sanitized_android_key key := by
  intro key
  obtain ⟨hchars, hhead, hlast, hchain⟩ := canonicalKey_sanitized key
  refine ⟨rfl, hchars, hhead, hlast, ?_⟩
  exact sanitized_eq_self_of_canonical ⟨hchars, hhead, hlast, hchain⟩

/-! ## Claim C10: independence from map iteration order -/

theorem btreeInsert_perm {α : Type} (k : String) (v : α) :
    ∀ m : List (String × α), k ∉ m.map Prod.fst →
      (btreeInsert k v m).Perm ((k, v) :: m) := by
  intro m
  induction m with
  | nil => intro _; exact List.Perm.refl _
  | cons q rest ih =>
    intro h
    obtain ⟨k2, v2⟩ := q
    rw [List.map_cons, List.mem_cons] at h
    push_neg at h
    obtain ⟨hne, hrest⟩ := h
    simp only [btreeInsert]
    by_cases h1 : lexLt k.data k2.data = true
    · rw [if_pos h1]
    · rw [if_neg h1, if_neg (by exact fun he => hne he)]
      exact ((ih hrest).cons (k2, v2)).trans (List.Perm.swap (k, v) (k2, v2) rest)

theorem sortedKeys_foldl_btreeInsert {α : Type} :
    ∀ (ps : List (String × α)) (acc), SortedKeys acc →
      SortedKeys (ps.foldl (fun acc p => btreeInsert p.1 p.2 acc) acc) := by
  intro ps
  induction ps with
  | nil => intro acc h; exact h
  | cons p ps ih => intro acc h; exact ih _ (sortedKeys_btreeInsert h)

theorem foldl_btreeInsert_perm {α : Type} :
    ∀ (ps : List (String × α)) (acc),
      (ps.map Prod.fst ++ acc.map Prod.fst).Nodup →
      (ps.foldl (fun acc p => btreeInsert p.1 p.2 acc) acc).Perm (ps ++ acc) := by
  intro ps
  induction ps with
  | nil => intro acc h; exact List.Perm.refl _
  | cons p ps ih =>
    intro acc h
    rw [List.map_cons, List.cons_append, List.nodup_cons] at h
    obtain ⟨hp, hrest⟩ := h
    have hpacc : p.1 ∉ acc.map Prod.fst := fun hm => hp (List.mem_append_right _ hm)
    have hinskeys : ((btreeInsert p.1 p.2 acc).map Prod.fst).Perm (p.1 :: acc.map Prod.fst) :=
      (btreeInsert_perm p.1 p.2 acc hpacc).map Prod.fst
    have hnodup2 : (ps.map Prod.fst ++ ((btreeInsert p.1 p.2 acc).map Prod.fst)).Nodup := by
      have hsrc : (p.1 :: (ps.map Prod.fst ++ acc.map Prod.fst)).Nodup :=
        List.nodup_cons.mpr ⟨hp, hrest⟩
      have hT : (p.1 :: (ps.map Prod.fst ++ acc.map Prod.fst)).Perm
          (ps.map Prod.fst ++ (btreeInsert p.1 p.2 acc).map Prod.fst) :=
        (List.perm_middle).symm.trans (List.Perm.append_left (ps.map Prod.fst) hinskeys.symm)
      exact hT.nodup hsrc
    have step1 := ih (btreeInsert p.1 p.2 acc) hnodup2
    have step2 : (ps ++ btreeInsert p.1 p.2 acc).Perm (ps ++ (p :: acc)) :=
      List.Perm.append_left ps (btreeInsert_perm p.1 p.2 acc hpacc)
    have step3 : (ps ++ (p :: acc)).Perm ((p :: ps) ++ acc) := List.perm_middle
    rw [List.foldl_cons]
    exact (step1.trans step2).trans step3

theorem eq_of_perm_of_sortedKeys {α : Type} {m1 m2 : List (String × α)}
    (hperm : m1.Perm m2) (h1 : SortedKeys m1) (h2 : SortedKeys m2) : m1 = m2 := by
  haveI : IsAntisymm (String × α) (fun p q => lexLt p.1.data q.1.data = true) := by
    constructor
    intro p q hpq hqp
    rw [lexLt_asymm _ _ hpq] at hqp
    exact absurd hqp Bool.false_ne_true
  exact List.eq_of_perm_of_sorted hperm h1 h2

theorem foldl_btreeInsert_eq_of_perm {α : Type} (ps qs : List (String × α))
    (hperm : ps.Perm qs) (hnodup : (ps.map Prod.fst).Nodup) :
    ps.foldl (fun acc p => btreeInsert p.1 p.2 acc) [] =
      qs.foldl (fun acc p => btreeInsert p.1 p.2 acc) [] := by
  have hnodup2 : (qs.map Prod.fst).Nodup := (hperm.map Prod.fst).nodup hnodup
  have hp1 := foldl_btreeInsert_perm ps [] (by simpa using hnodup)
  have hp2 := foldl_btreeInsert_perm qs [] (by simpa using hnodup2)
  rw [List.append_nil] at hp1 hp2
  apply eq_of_perm_of_sortedKeys
  · exact (hp1.trans hperm).trans hp2.symm
  · exact sortedKeys_foldl_btreeInsert ps [] sortedKeys_nil
  · exact sortedKeys_foldl_btreeInsert qs [] sortedKeys_nil

theorem buildLocalizationValue_eq_of_perm
    (locs1 locs2 : List (String × Input.TranslationTypeContainer))
    (hperm : locs1.Perm locs2) (hnodup : (locs1.map Prod.fst).Nodup) :
    Output.buildLocalizationValue locs1 = Output.buildLocalizationValue locs2 := by
  have hfold : ∀ locs : List (String × Input.TranslationTypeContainer),
      Output.buildLocalizationValue locs =
        (locs.map (fun p => (p.1, Output.translationOfContainer p.2))).foldl
          (fun acc p => btreeInsert p.1 p.2 acc) [] := by
    intro locs
    rw [Output.buildLocalizationValue, List.foldl_map]
  rw [hfold, hfold]
  apply foldl_btreeInsert_eq_of_perm
  · exact hperm.map _
  · rw [List.map_map]
    exact hnodup

theorem single_translation_of_congr (src : String) (a b : String × Input.Language)
    (hk : a.1 = b.1) (hc : a.2.comment = b.2.comment)
    (hp : a.2.localizations.Perm b.2.localizations)
    (hnodup : (a.2.localizations.map Prod.fst).Nodup) :
    Output.single_translation_of src a = Output.single_translation_of src b := by
  obtain ⟨k1, c1, locs1⟩ := a
  obtain ⟨k2, c2, locs2⟩ := b
  simp only at hk hc hp hnodup
  subst hk
  subst hc
  simp only [Output.single_translation_of]
  rw [buildLocalizationValue_eq_of_perm locs1 locs2 hp hnodup]

theorem processEntries_ok_inv (src : String) :
    ∀ (l : List (String × Input.Language)) (e : List Output.SingleTranslation),
      Output.processEntries src l = .ok e →
      e = l.map (Output.single_translation_of src) := by
  intro l
  induction l with
  | nil =>
    intro e h
    injection h with h
    exact h.symm
  | cons p rest ih =>
    intro e h
    simp only [Output.processEntries] at h
    by_cases hbad : rustTrim p.1.data ≠ p.1.data
    · rw [if_pos hbad] at h
      exact Except.noConfusion h
    · rw [if_neg hbad] at h
      cases hpe : Output.processEntries src rest with
      | error err =>
        rw [hpe] at h
        exact Except.noConfusion h
      | ok rest2 =>
        rw [hpe] at h
        injection h with h
        rw [← h, List.map_cons, ih rest2 hpe]

theorem map_single_eq_of_forall2 (src : String) :
    ∀ {l m : List (String × Input.Language)},
      List.Forall₂ LanguageEquiv l m →
      (∀ e ∈ l, (e.2.localizations.map Prod.fst).Nodup) →
      l.map (Output.single_translation_of src) = m.map (Output.single_translation_of src) := by
  intro l m h
  induction h with
  | nil => intro _; rfl
  | cons hab hrest ih =>
    intro hn
    rw [List.map_cons, List.map_cons]
    rw [single_translation_of_congr src _ _ hab.1 hab.2.1 hab.2.2
      (hn _ (List.mem_cons_self _ _))]
    rw [ih (fun e he => hn e (List.mem_cons_of_mem _ he))]

theorem insertionSort_eq_of_perm_nodup (l1 l2 : List Output.SingleTranslation)
    (hperm : l1.Perm l2) (hnodup : (l1.map (fun st => st.key_raw)).Nodup) :
    List.insertionSort Output.keyRawLe l1 = List.insertionSort Output.keyRawLe l2 := by
  have hs1 := sorted_insertionSort_keyRawLe l1
  have hs2 := sorted_insertionSort_keyRawLe l2
  have hp1 := List.perm_insertionSort Output.keyRawLe l1
  have hp2 := List.perm_insertionSort Output.keyRawLe l2
  have hnodup2 : (l2.map (fun st => st.key_raw)).Nodup :=
    ((hperm.map (fun st => st.key_raw))).nodup hnodup
  have hkey1 : ((List.insertionSort Output.keyRawLe l1).map (fun st => st.key_raw)).Nodup :=
    ((hp1.map (fun st => st.key_raw)).symm).nodup hnodup
  have hkey2 : ((List.insertionSort Output.keyRawLe l2).map (fun st => st.key_raw)).Nodup :=
    ((hp2.map (fun st => st.key_raw)).symm).nodup hnodup2
  have hstrict : ∀ l : List Output.SingleTranslation, List.Sorted Output.keyRawLe l →
      ((l.map (fun st => st.key_raw)).Nodup) →
      l.Pairwise (fun a b => lexLt a.key_raw.data b.key_raw.data = true) := by
    intro l hs hn
    have hne : l.Pairwise (fun a b => a.key_raw ≠ b.key_raw) := List.pairwise_map.mp hn
    have hand := List.Pairwise.and hs hne
    apply List.Pairwise.imp ?_ hand
    intro a b hab
    obtain ⟨hle, hner⟩ := hab
    rcases lexLt_total a.key_raw.data b.key_raw.data with h | h | h
    · exact h
    · rw [hle] at h
      exact absurd h Bool.false_ne_true
    · exact absurd (String.ext h) hner
  haveI : IsAntisymm Output.SingleTranslation
      (fun a b => lexLt a.key_raw.data b.key_raw.data = true) := by
    constructor
    intro a b hpq hqp
    rw [lexLt_asymm _ _ hpq] at hqp
    exact absurd hqp Bool.false_ne_true
  exact List.eq_of_perm_of_sorted ((hp1.trans hperm).trans hp2.symm)
    (hstrict _ hs1 hkey1) (hstrict _ hs2 hkey2)

/-- Claim C10: two deserialized catalogs equal as mappings (same source
language and version, the outer map and every localization map holding the
same pairs in any iteration order, keys unrepeated as in any map) that both
parse successfully yield identical `Localizable` values: the parse result
does not depend on map iteration order. -/
theorem claim_C10_order_independence :
    ∀ (t1 t2 : Input.Translation) (p1 p2 : Output.Parsed),
      t1.source_language = t2.source_language →
      StringsEquiv t1.strings t2.strings →
      (t1.strings.map Prod.fst).Nodup →
      (∀ e ∈ t1.strings, (e.2.localizations.map Prod.fst).Nodup) →
      Output.from_string t1 = .ok p1 →
      Output.from_string t2 = .ok p2 →
      p1.localizable = p2.localizable := by
  intro t1 t2 p1 p2 hsrc hequiv hnodup hinner h1 h2
  obtain ⟨mid, hf2, hperm⟩ := hequiv
  cases hpe1 : Output.processEntries t1.source_language t1.strings with
  | error e =>
    simp only [Output.from_string, hpe1] at h1
    exact Except.noConfusion h1
  | ok entries1 =>
    cases hpe2 : Output.processEntries t2.source_language t2.strings with
    | error e =>
      simp only [Output.from_string, hpe2] at h2
      exact Except.noConfusion h2
    | ok entries2 =>
      simp only [Output.from_string, hpe1] at h1
      simp only [Output.from_string, hpe2] at h2
      injection h1 with h1
      injection h2 with h2
      have he1 : entries1 = t1.strings.map (Output.single_translation_of t1.source_language) :=
        processEntries_ok_inv _ _ _ hpe1
      have he2 : entries2 = t2.strings.map (Output.single_translation_of t1.source_language) := by
        rw [hsrc]
        exact processEntries_ok_inv _ _ _ hpe2
      have hmapmid :
          t1.strings.map (Output.single_translation_of t1.source_language) =
            mid.map (Output.single_translation_of t1.source_language) :=
        map_single_eq_of_forall2 _ hf2 hinner
      have hentperm : entries1.Perm entries2 := by
        rw [he1, he2, hmapmid]
        exact hperm.map _
      have hkeynodup : (entries1.map (fun st => st.key_raw)).Nodup := by
        rw [he1]
        have hcomp :
            (t1.strings.map (Output.single_translation_of t1.source_language)).map
              (fun st => st.key_raw) = t1.strings.map Prod.fst := by
          rw [List.map_map]
          rfl
        rw [hcomp]
        exact hnodup
      have hsorteq := insertionSort_eq_of_perm_nodup entries1 entries2 hentperm hkeynodup
      rw [← h1, ← h2]
      show ({ source_language := t1.source_language
              single_translation := List.insertionSort Output.keyRawLe entries1 } :
          Output.Localizable) =
        { source_language := t2.source_language
          single_translation := List.insertionSort Output.keyRawLe entries2 }
      rw [hsrc, hsorteq]

/-- Witness for C10: a one-key catalog whose localization map is presented in
two different iteration orders parses to the same `Localizable`. -/
theorem claim_C10_order_independence_witness :
    ({ localizable :=
         { source_language := "en"
           single_translation :=
             [{ key_raw := "k", key_alphanumeric := "k"
                localization_value :=
                  ⟨[("en", Output.Translation.Localization ⟨"translated", "A"⟩),
                    ("nl", Output.Translation.Localization ⟨"new", "B"⟩)]⟩
                comment := "" }] }
       translation :=
         ⟨"en", [("k", ⟨"", [("en", Input.TranslationTypeContainer.StringUnit ⟨⟨"translated", "A"⟩⟩),
                            ("nl", Input.TranslationTypeContainer.StringUnit ⟨⟨"new", "B"⟩⟩)]⟩)], "1"⟩ } :
        Output.Parsed).localizable =
    ({ localizable :=
         { source_language := "en"
           single_translation :=
             [{ key_raw := "k", key_alphanumeric := "k"
                localization_value :=
                  ⟨[("en", Output.Translation.Localization ⟨"translated", "A"⟩),
                    ("nl", Output.Translation.Localization ⟨"new", "B"⟩)]⟩
                comment := "" }] }
       translation :=
         ⟨"en", [("k", ⟨"", [("nl", Input.TranslationTypeContainer.StringUnit ⟨⟨"new", "B"⟩⟩),
                            ("en", Input.TranslationTypeContainer.StringUnit ⟨⟨"translated", "A"⟩⟩)]⟩)], "1"⟩ } :
        Output.Parsed).localizable :=
  claim_C10_order_independence
    ⟨"en", [("k", ⟨"", [("en", Input.TranslationTypeContainer.StringUnit ⟨⟨"translated", "A"⟩⟩),
                        ("nl", Input.TranslationTypeContainer.StringUnit ⟨⟨"new", "B"⟩⟩)]⟩)], "1"⟩
    ⟨"en", [("k", ⟨"", [("nl", Input.TranslationTypeContainer.StringUnit ⟨⟨"new", "B"⟩⟩),
                        ("en", Input.TranslationTypeContainer.StringUnit ⟨⟨"translated", "A"⟩⟩)]⟩)], "1"⟩
    _ _ rfl
    ⟨[("k", ⟨"", [("nl", Input.TranslationTypeContainer.StringUnit ⟨⟨"new", "B"⟩⟩),
                  ("en", Input.TranslationTypeContainer.StringUnit ⟨⟨"translated", "A"⟩⟩)]⟩)],
      List.Forall₂.cons
        ⟨rfl, rfl,
          List.Perm.swap ("nl", Input.TranslationTypeContainer.StringUnit ⟨⟨"new", "B"⟩⟩)
            ("en", Input.TranslationTypeContainer.StringUnit ⟨⟨"translated", "A"⟩⟩) []⟩
        List.Forall₂.nil,
      List.Perm.refl _⟩
    (by decide) (by decide) (by rfl) (by rfl)
